import Mathlib

/-!
Verification of the crawl-orchestration core of the Scraper-Agent repository.

The definitions below are a shallow embedding of `src/scraper-agent.py`
(with the single-response selector parse taken from
`src/universal_scraper_agent.py`, `detect_selectors`, which the per-chunk
loop of `scraper-agent.py` repeats per chunk).  Machine-level details kept
faithful: Python slice normalisation (`pySlice`), the `while start <
len(html)` loop of `chunk_html` rendered as a fuel-indexed loop (the source
loop has no termination guarantee when `size <= overlap`, so the embedding
returns `none` exactly when the given fuel runs out before the loop's guard
turns false), the membership guards of the crawl frontier, the
first-JSON-looking-substring regex of the response parse, and the
success-only audit append of `download_pdf_concurrently`.

External library calls (`json.loads`, the HTTP fetch) are modelled as
function parameters; `urllib.parse.urlparse(...).netloc` is modelled
concretely by `netlocOf`, following the stdlib's scheme/netloc split.
-/

namespace Scraper

/-! ## Chunk splitter (`chunk_html`, src/scraper-agent.py lines 74-82) -/

/-- Python slice index normalisation: a negative index counts from the end
(clamped at 0), a non-negative index is clamped at the length. -/
def pyIdx (n : Nat) (i : Int) : Nat :=
  if i < 0 then ((n : Int) + i).toNat else min i.toNat n

/-- Python slice `s[a:b]` (step 1). -/
def pySlice (s : List Char) (a b : Int) : List Char :=
  (s.take (pyIdx s.length b)).drop (pyIdx s.length a)

/-- The `while start < len(html_content)` loop of `chunk_html`, indexed by
fuel.  One fuel unit is one loop-guard evaluation; `none` means the fuel ran
out with the guard still true (the source loop would still be running). -/
def chunkLoop (html : List Char) (size overlap : Nat) :
    Nat → Int → List (List Char) → Option (List (List Char))
  | 0, _, _ => none
  | fuel + 1, start, chunks =>
    if start < (html.length : Int) then
      chunkLoop html size overlap fuel (start + (size : Int) - (overlap : Int))
        (chunks ++ [pySlice html start (start + (size : Int))])
    else some chunks

/-- `chunk_html(html_content, size, overlap)`: starts at `start = 0` with an
empty chunk list.  Fuel `html.length + 1` is enough for every terminating run
(the loop runs at most `ceil(len / (size - overlap)) <= len` times when
`overlap < size`). -/
def chunk_html (html : List Char) (size overlap : Nat) : Option (List (List Char)) :=
  chunkLoop html size overlap (html.length + 1) 0 []

/-- Number of loop iterations of `chunk_html` that append a chunk:
`ceil(len / step)` with `step = size - overlap`. -/
def chunkN (s : List Char) (step : Nat) : Nat :=
  (s.length + step - 1) / step

/-- Closed form of the chunk list: chunk `k` is `html[k*step : k*step+size]`
with `step = size - overlap`, for `k` ranging over `ceil(len/step)` values. -/
def chunkSpec (s : List Char) (size step : Nat) : List (List Char) :=
  (List.range (chunkN s step)).map (fun k => (s.drop (k * step)).take size)

theorem lt_chunkN_iff (s : List Char) (step k : Nat) (hstep : 0 < step) :
    k < chunkN s step ↔ k * step < s.length := by
  rw [chunkN, Nat.lt_iff_add_one_le, Nat.le_div_iff_mul_le hstep, add_mul, one_mul]
  generalize k * step = a
  omega

theorem chunkN_le (s : List Char) (step : Nat) (hstep : 0 < step) :
    chunkN s step ≤ s.length := by
  by_contra h
  push_neg at h
  have h2 := (lt_chunkN_iff s step s.length hstep).mp h
  nlinarith

theorem length_le_of_chunkN_le (s : List Char) (step k : Nat) (hstep : 0 < step)
    (h : chunkN s step ≤ k) : s.length ≤ k * step := by
  by_contra hc
  push_neg at hc
  have h2 := (lt_chunkN_iff s step k hstep).mpr hc
  omega

theorem pySlice_natCast (s : List Char) (a size : Nat) :
    pySlice s (a : Int) ((a : Int) + (size : Int)) = (s.drop a).take size := by
  unfold pySlice pyIdx
  have ha : ¬ ((a : Int) < 0) := by omega
  have hab : ¬ ((a : Int) + (size : Int) < 0) := by omega
  have htoa : ((a : Int)).toNat = a := Int.toNat_ofNat a
  have htob : ((a : Int) + (size : Int)).toNat = a + size := by
    rw [← Nat.cast_add, Int.toNat_ofNat]
  rw [if_neg ha, if_neg hab, htoa, htob]
  by_cases hle : a ≤ s.length
  · have hmin : min a s.length = a := min_eq_left hle
    rw [hmin, List.drop_take]
    rw [List.take_eq_take]
    have hlen : (s.drop a).length = s.length - a := List.length_drop a s
    rw [hlen]
    omega
  · push_neg at hle
    have hmin : min a s.length = s.length := min_eq_right (le_of_lt hle)
    have hmin2 : min (a + size) s.length = s.length := by omega
    rw [hmin, hmin2, List.take_length]
    rw [List.drop_eq_nil_of_le (by omega), List.drop_eq_nil_of_le (le_of_lt hle)]
    simp

theorem chunkLoop_eq (s : List Char) (size overlap : Nat) (hov : overlap < size) :
    ∀ (fuel k : Nat) (chunks : List (List Char)),
      chunkN s (size - overlap) - k < fuel →
      chunkLoop s size overlap fuel ((k * (size - overlap) : Nat) : Int) chunks
        = some (chunks ++ (List.range (chunkN s (size - overlap) - k)).map
            (fun j => (s.drop ((k + j) * (size - overlap))).take size)) := by
  have hstep : 0 < size - overlap := by omega
  intro fuel
  induction fuel with
  | zero => intro k chunks h; exact absurd h (Nat.not_lt_zero _)
  | succ f ih =>
    intro k chunks h
    rw [chunkLoop]
    by_cases hk : k < chunkN s (size - overlap)
    · have hguard : ((k * (size - overlap) : Nat) : Int) < (s.length : Int) := by
        exact_mod_cast (lt_chunkN_iff s (size - overlap) k hstep).mp hk
      rw [if_pos hguard]
      have hstart : ((k * (size - overlap) : Nat) : Int) + (size : Int) - (overlap : Int)
          = (((k + 1) * (size - overlap) : Nat) : Int) := by
        push_cast [Nat.cast_sub (le_of_lt hov)]
        ring
      have hchunk : pySlice s ((k * (size - overlap) : Nat) : Int)
            (((k * (size - overlap) : Nat) : Int) + (size : Int))
          = (s.drop (k * (size - overlap))).take size := pySlice_natCast s _ size
      rw [hstart, hchunk, ih (k + 1) _ (by omega)]
      have hrange : chunkN s (size - overlap) - k = (chunkN s (size - overlap) - (k + 1)) + 1 := by
        omega
      rw [hrange, List.range_succ_eq_map, List.map_cons, List.map_map]
      have hfun : ((fun j => (s.drop ((k + j) * (size - overlap))).take size) ∘ Nat.succ)
          = (fun j => (s.drop ((k + 1 + j) * (size - overlap))).take size) := by
        funext j
        simp only [Function.comp, Nat.succ_eq_add_one]
        congr 2
        ring
      rw [hfun]
      simp
    · push_neg at hk
      have hguard : ¬ (((k * (size - overlap) : Nat) : Int) < (s.length : Int)) := by
        have := length_le_of_chunkN_le s (size - overlap) k hstep hk
        exact_mod_cast not_lt.mpr this
      rw [if_neg hguard]
      have : chunkN s (size - overlap) - k = 0 := by omega
      rw [this]
      simp

theorem chunk_html_eq (s : List Char) (size overlap : Nat) (hov : overlap < size) :
    chunk_html s size overlap = some (chunkSpec s size (size - overlap)) := by
  have hstep : 0 < size - overlap := by omega
  have hN := chunkN_le s (size - overlap) hstep
  have h := chunkLoop_eq s size overlap hov (s.length + 1) 0 [] (by omega)
  simp only [Nat.zero_mul, Nat.cast_zero, Nat.sub_zero, List.nil_append, Nat.zero_add] at h
  rw [chunk_html]
  rw [h, chunkSpec]

theorem chunkSpec_getD (s : List Char) (size step k : Nat) (hk : k < chunkN s step) :
    (chunkSpec s size step).getD k [] = (s.drop (k * step)).take size := by
  have hlen : k < (chunkSpec s size step).length := by
    simpa [chunkSpec] using hk
  rw [List.getD_eq_getElem _ _ hlen]
  simp [chunkSpec]

/-- C10: for every html string and every configuration with `overlap < size`,
the chunk-splitting loop terminates (within `len + 1` guard evaluations, since
each iteration advances the start offset by `size - overlap >= 1`), and the
number of chunks produced is exactly `ceil(len / (size - overlap))` — hence
finite, at most that bound, and zero for the empty string. -/
theorem chunk_html_terminates (s : List Char) (size overlap : Nat) (hov : overlap < size) :
    ∃ L, chunk_html s size overlap = some L
      ∧ L.length = (s.length + (size - overlap) - 1) / (size - overlap)
      ∧ (s = [] → L = []) := by
  refine ⟨chunkSpec s size (size - overlap), chunk_html_eq s size overlap hov, ?_, ?_⟩
  · simp [chunkSpec, chunkN]
  · intro hnil
    subst hnil
    have h0 : chunkN ([] : List Char) (size - overlap) = 0 := by
      rw [chunkN]
      simp only [List.length_nil, Nat.zero_add]
      exact Nat.div_eq_of_lt (by omega)
    simp [chunkSpec, h0]

theorem chunk_html_terminates_witness :
    ∃ L, chunk_html ['a', 'b', 'c'] 2 1 = some L
      ∧ L.length = ((['a', 'b', 'c'] : List Char).length + (2 - 1) - 1) / (2 - 1)
      ∧ ((['a', 'b', 'c'] : List Char) = [] → L = []) :=
  chunk_html_terminates ['a', 'b', 'c'] 2 1 (by decide)

/-- C3 counterexample: for `html = "ab"`, `size = 2`, `overlap = 1` we have
`len(html) = 2 <= size` and `size > overlap >= 0`, yet `chunk_html` returns
two chunks `["ab", "b"]`, not exactly one whole-string chunk. -/
theorem single_chunk_counterexample :
    (['a', 'b'] : List Char).length ≤ 2 ∧ (1 : Nat) < 2 ∧
    chunk_html ['a', 'b'] 2 1 = some [['a', 'b'], ['b']] ∧
    chunk_html ['a', 'b'] 2 1 ≠ some [['a', 'b']] := by decide

/-- C3 amended: the splitter returns exactly one chunk (the whole string)
when the string is non-empty and `len(html) <= size - overlap` (not merely
`len(html) <= size`: once `size - overlap < len(html)`, the loop runs again
and emits further chunks; the empty string yields zero chunks). -/
theorem single_chunk_amended (s : List Char) (size overlap : Nat)
    (hov : overlap < size) (hpos : 0 < s.length) (hle : s.length ≤ size - overlap) :
    chunk_html s size overlap = some [s] := by
  rw [chunk_html_eq s size overlap hov]
  have hstep : 0 < size - overlap := by omega
  have hN : chunkN s (size - overlap) = 1 := by
    have h1 : 0 < chunkN s (size - overlap) :=
      (lt_chunkN_iff s _ 0 hstep).mpr (by simpa using hpos)
    have h2 : ¬ (1 < chunkN s (size - overlap)) := by
      rw [lt_chunkN_iff s _ 1 hstep]
      omega
    omega
  have hs : s.length ≤ size := by omega
  rw [chunkSpec, hN]
  have hr : List.range 1 = [0] := rfl
  rw [hr]
  simp [List.take_of_length_le hs]

theorem single_chunk_amended_witness :
    chunk_html ['a', 'b'] 3 1 = some [['a', 'b']] :=
  single_chunk_amended ['a', 'b'] 3 1 (by decide) (by decide) (by decide)

/-- C7 counterexample: for `s = "abcde"`, `size = 3`, `overlap = 2` the
chunks are `["abc", "bcd", "cde", "de", "e"]`: chunk index 3 is not the last
chunk yet has length 2, not `size = 3`, and the region it shares with the
next chunk has length 1, not `overlap = 2`. -/
theorem chunk_coverage_counterexample :
    chunk_html ['a', 'b', 'c', 'd', 'e'] 3 2 =
      some [['a', 'b', 'c'], ['b', 'c', 'd'], ['c', 'd', 'e'], ['d', 'e'], ['e']] ∧
    (([['a', 'b', 'c'], ['b', 'c', 'd'], ['c', 'd', 'e'], ['d', 'e'], ['e']].getD 3
        ([] : List Char)).length ≠ 3) ∧
    3 + 1 < [['a', 'b', 'c'], ['b', 'c', 'd'], ['c', 'd', 'e'], ['d', 'e'], ['e']].length ∧
    (([['a', 'b', 'c'], ['b', 'c', 'd'], ['c', 'd', 'e'], ['d', 'e'], ['e']].getD 3
        ([] : List Char)).drop (3 - 2)).length ≠ 2 := by decide

/-- C7 amended: for `overlap < size` and `step = size - overlap`, the chunks
are the ordered slices `s[k*step : k*step + size]` for `k <
ceil(len/step)`; a chunk whose slice fits inside `s` (i.e. `k*step + size <=
len`) has length exactly `size`, and truncated tail chunks have length
`len - k*step`; consecutive chunks share exactly the region
`s[(k+1)*step : k*step + size]` (which has `overlap` characters when the
earlier chunk is full, fewer at the truncated tail); every position of `s`
is covered by some chunk, and the last chunk reaches offset `len`. -/
theorem chunk_coverage_amended (s : List Char) (size overlap : Nat) (hov : overlap < size) :
    chunk_html s size overlap = some (chunkSpec s size (size - overlap))
    ∧ (chunkSpec s size (size - overlap)).length = chunkN s (size - overlap)
    ∧ (∀ k, k < chunkN s (size - overlap) →
        (chunkSpec s size (size - overlap)).getD k []
          = (s.drop (k * (size - overlap))).take size)
    ∧ (∀ k, k < chunkN s (size - overlap) →
        ((chunkSpec s size (size - overlap)).getD k []).length
          = min size (s.length - k * (size - overlap)))
    ∧ (∀ k, k * (size - overlap) + size ≤ s.length →
        ((chunkSpec s size (size - overlap)).getD k []).length = size)
    ∧ (∀ k, k + 1 < chunkN s (size - overlap) →
        ((chunkSpec s size (size - overlap)).getD k []).drop (size - overlap)
          = ((chunkSpec s size (size - overlap)).getD (k + 1) []).take overlap)
    ∧ (∀ i, i < s.length → ∃ k, k < chunkN s (size - overlap)
        ∧ k * (size - overlap) ≤ i ∧ i < k * (size - overlap) + size)
    ∧ (0 < s.length →
        s.length ≤ (chunkN s (size - overlap) - 1) * (size - overlap) + size) := by
  have hstep : 0 < size - overlap := by omega
  refine ⟨chunk_html_eq s size overlap hov, by simp [chunkSpec, chunkN], ?_, ?_, ?_, ?_, ?_, ?_⟩
  · intro k hk
    exact chunkSpec_getD s size (size - overlap) k hk
  · intro k hk
    rw [chunkSpec_getD s size (size - overlap) k hk]
    simp
  · intro k hk
    have hklt : k < chunkN s (size - overlap) := by
      rw [lt_chunkN_iff s _ k hstep]
      omega
    rw [chunkSpec_getD s size (size - overlap) k hklt]
    simp only [List.length_take, List.length_drop]
    omega
  · intro k hk
    have hk1 : k < chunkN s (size - overlap) := by omega
    rw [chunkSpec_getD s size (size - overlap) k hk1,
      chunkSpec_getD s size (size - overlap) (k + 1) hk]
    rw [List.drop_take, List.drop_drop, List.take_take]
    have h1 : size - (size - overlap) = overlap := by omega
    have h2 : min overlap size = overlap := by omega
    have h3 : k * (size - overlap) + (size - overlap) = (k + 1) * (size - overlap) := by ring
    rw [h1, h2, h3]
  · intro i hi
    have h1 : (size - overlap) * (i / (size - overlap)) + i % (size - overlap) = i :=
      Nat.div_add_mod i (size - overlap)
    have h2 : i % (size - overlap) < size - overlap := Nat.mod_lt i hstep
    refine ⟨i / (size - overlap), ?_, ?_, ?_⟩
    · rw [lt_chunkN_iff s _ _ hstep, Nat.mul_comm]
      omega
    · rw [Nat.mul_comm]
      omega
    · rw [Nat.mul_comm]
      omega
  · intro hpos
    have h1 : 0 < chunkN s (size - overlap) :=
      (lt_chunkN_iff s _ 0 hstep).mpr (by simpa using hpos)
    have h2 : s.length ≤ chunkN s (size - overlap) * (size - overlap) :=
      length_le_of_chunkN_le s (size - overlap) _ hstep (le_refl _)
    obtain ⟨m, hm⟩ : ∃ m, chunkN s (size - overlap) = m + 1 := ⟨_, (by omega : chunkN s (size - overlap) = chunkN s (size - overlap) - 1 + 1)⟩
    rw [hm] at h2 ⊢
    have h3 : (m + 1) * (size - overlap) = m * (size - overlap) + (size - overlap) := by ring
    simp only [Nat.add_sub_cancel]
    omega

theorem chunk_coverage_amended_witness :
    chunk_html ['a', 'b', 'c'] 2 1 = some (chunkSpec ['a', 'b', 'c'] 2 (2 - 1)) :=
  (chunk_coverage_amended ['a', 'b', 'c'] 2 1 (by decide)).1

/-- C4 (code behaviour at the failing input): with `size = overlap = 1` the
loop of `chunk_html` never advances its start offset, so on the non-empty
input `"a"` it never terminates — for every amount of fuel the guard is
still true and no value (and no `InvalidConfiguration` error, which the code
nowhere raises) is ever produced.  On the empty string the same invalid
configuration returns the chunk list `[]` normally instead of failing. -/
theorem chunk_invalid_config_no_error (fuel : Nat) (chunks : List (List Char)) :
    chunkLoop ['a'] 1 1 fuel 0 chunks = none ∧ chunk_html [] 1 1 = some [] := by
  constructor
  · induction fuel generalizing chunks with
    | zero => rfl
    | succ f ih =>
      rw [chunkLoop]
      rw [if_pos (by norm_num)]
      have h0 : (0 : Int) + ((1 : Nat) : Int) - ((1 : Nat) : Int) = 0 := by norm_num
      rw [h0]
      exact ih _
  · rfl

/-! ## Crawl frontier (`main`, src/scraper-agent.py lines 176-184 and 227-233) -/

/-- The two crawl collections of `main`: `visited_pages` and `queue`. -/
structure Frontier where
  visited : List String
  queue : List String
deriving DecidableEq, Repr

/-- `visited_pages = set(); queue = deque([START_URL])`. -/
def initFrontier (start : String) : Frontier :=
  { visited := [], queue := [start] }

/-- Lines 231-233: `if href not in visited_pages and href not in queue:
queue.append(href)` — append at the back only when the URL is in neither
collection. -/
def enqueue (s : Frontier) (url : String) : Frontier :=
  if url ∈ s.visited ∨ url ∈ s.queue then s
  else { s with queue := s.queue ++ [url] }

/-! ## `urlparse(...).netloc` and link classification -/

/-- Characters allowed in a URL scheme (`urllib.parse.scheme_chars`). -/
def isSchemeChar (c : Char) : Bool :=
  c.isAlpha || c.isDigit || c == '+' || c == '-' || c == '.'

/-- Strip a leading `scheme:` when the text before the first colon is a
non-empty run of scheme characters starting with a letter (the
`urllib.parse.urlsplit` rule); otherwise leave the URL unchanged. -/
def dropScheme (url : List Char) : List Char :=
  let pre := url.takeWhile isSchemeChar
  match url.drop pre.length with
  | ':' :: rest =>
    match pre with
    | [] => url
    | c :: _ => if c.isAlpha then rest else url
  | _ => url

/-- Model of `urllib.parse.urlparse(url).netloc`: after the scheme, a
netloc is present only behind `//` and runs until the first `/`, `?` or
`#`. -/
def netlocOf (url : String) : String :=
  match dropScheme url.data with
  | '/' :: '/' :: rest =>
    String.mk (rest.takeWhile (fun c => !(c == '/' || c == '?' || c == '#')))
  | _ => ""

/-- The document-link classifier: the CSS selector `a[href$='.pdf' i]`
(line 208) matches an href ending in `.pdf` case-insensitively. -/
def isPdfHref (href : String) : Bool :=
  (href.data.map Char.toLower).reverse.take 4 == ['f', 'd', 'p', '.']

/-- Line 228: `if href and href.startswith('http')`. -/
def startsWithHttp (href : String) : Bool :=
  href.data.take 4 == ['h', 't', 't', 'p']

/-- Lines 228-229: the pre-conditions an href must pass before the
enqueue guard — starts with `http` and `urlparse(href).netloc ==
base_domain`.  (There is no document-link exclusion here.) -/
def crawlEligible (base href : String) : Bool :=
  startsWithHttp href && netlocOf href == base

/-- Lines 206-211: the document links collected from the page's anchors. -/
def discoverPdfHrefs (hrefs : List String) : List String :=
  hrefs.filter isPdfHref

/-- Lines 226-233: fold over the discovered hrefs, enqueueing each eligible
one under the frontier guard. -/
def discoverStep (s : Frontier) (base : String) (hrefs : List String) : Frontier :=
  hrefs.foldl (fun st h => if crawlEligible base h then enqueue st h else st) s

/-! ## The crawl loop (`while queue:` of `main`, lines 176-246) -/

/-- What one loop iteration does with the popped URL: `crash` models an
exception thrown before `visited_pages.add(url)` (e.g. `driver.get`), so the
URL is dropped without being marked; `page links` models an iteration that
marks the URL visited and then discovers `links` (a prefix of the page's
hrefs, since a later exception merely truncates the discovery loop). -/
inductive PageScript where
  | crash
  | page (links : List String)

/-- One iteration of the `while queue:` loop: pop the front, skip it when
already visited, otherwise mark it visited and run link discovery. -/
def crawlStep (base : String) (s : Frontier) (act : PageScript) : Frontier × Option String :=
  match s.queue with
  | [] => (s, none)
  | url :: rest =>
    if url ∈ s.visited then ({ s with queue := rest }, none)
    else
      match act with
      | .crash => ({ s with queue := rest }, none)
      | .page links =>
        (discoverStep { visited := url :: s.visited, queue := rest } base links, some url)

/-- The crawl loop run over a script of per-iteration behaviours, returning
the final frontier and the URLs processed (marked visited), in order. -/
def crawlRun (base : String) : Frontier → List PageScript → Frontier × List String
  | s, [] => (s, [])
  | s, act :: rest =>
    if s.queue = [] then (s, [])
    else
      let p := crawlStep base s act
      let r := crawlRun base p.1 rest
      (r.1, p.2.toList ++ r.2)

/-- The frontier invariant: the pending queue holds no URL twice and no URL
already visited. -/
def frontierInv (s : Frontier) : Prop :=
  s.queue.Nodup ∧ ∀ u ∈ s.queue, u ∉ s.visited

/-! ## Download manager (lines 142-162 and 214-224) -/

/-- Outcome of the HTTP fetch-and-persist inside
`download_pdf_concurrently`'s `try:` block (network error, bad status, or
file-write error all land in the `except` branch). -/
inductive FetchOutcome where
  | success
  | failure (reason : String)

/-- `download_pdf_concurrently(session, pdf_url, source_url)`: returns the
function's return value and the lines appended to the download audit log.
On success it appends `f"{pdf_url},{source_url}"` and returns the URL; in
the `except` branch it writes only to the console logger — no audit line —
and returns `None`. -/
def download_pdf_concurrently (fetch : String → FetchOutcome)
    (pdf_url source_url : String) : Option String × List String :=
  match fetch pdf_url with
  | .success => (some pdf_url, [pdf_url ++ "," ++ source_url])
  | .failure _ => (none, [])

/-- Lines 214-221: dispatch the downloads of one page.  State is
`(downloaded_pdf_urls, dispatched fetches so far)`: a URL not yet in the
global set is added to the set and its fetch task is created; a URL already
in the set is skipped with no task. -/
def dispatchBatch (st : List String × List String) (batch : List String) :
    List String × List String :=
  batch.foldl (fun p u => if u ∈ p.1 then p else (u :: p.1, p.2 ++ [u])) st

/-- The download dispatch across a whole run: one batch of discovered
document URLs per page, the global `downloaded_pdf_urls` set threaded
through. -/
def dispatchRun (st : List String × List String) :
    List (List String) → List String × List String
  | [] => st
  | b :: rest => dispatchRun (dispatchBatch st b) rest

/-! ## Response parser (src/universal_scraper_agent.py, `detect_selectors`,
lines 87-117; the per-chunk loop of src/scraper-agent.py lines 111-134 runs
the same extraction per chunk response) -/

/-- Decoded JSON values, the result type modelled for `json.loads`. -/
inductive JVal where
  | str (s : String)
  | num (n : Int)
  | bool (b : Bool)
  | null
  | arr (xs : List JVal)
  | obj (fields : List (String × JVal))
deriving Repr

def lbrace : Char := Char.ofNat 123
def rbrace : Char := Char.ofNat 125
def lbrack : Char := Char.ofNat 91
def rbrack : Char := Char.ofNat 93

def closerFor (c : Char) : Char :=
  if c = lbrace then rbrace else rbrack

/-- Index of the last occurrence of `c` in `s`. -/
def lastIndexOf (s : List Char) (c : Char) : Option Nat :=
  match s.reverse.findIdx? (· == c) with
  | some j => some (s.length - 1 - j)
  | none => none

/-- Scan of `re.search(r'\x7b[\s\S]*\x7d|\[[\s\S]*\]', result_str)`: the
leftmost position holding `\x7b` (with a later `\x7d`) or `[` (with a later
`]`) starts the match, which greedily extends to the last matching closer.
`suffix` is the not-yet-scanned tail of `s` and `i` its start index. -/
def reSearchAux (s : List Char) : List Char → Nat → Option (List Char)
  | [], _ => none
  | c :: rest, i =>
    if c = lbrace ∨ c = lbrack then
      match lastIndexOf s (closerFor c) with
      | some j => if i < j then some ((s.take (j + 1)).drop i) else reSearchAux s rest (i + 1)
      | none => reSearchAux s rest (i + 1)
    else reSearchAux s rest (i + 1)

def reSearchJson (s : List Char) : Option (List Char) :=
  reSearchAux s s 0

/-- The `for key, value in data.items(): if isinstance(value, list)` scan:
first list-valued field of a decoded object, in iteration order. -/
def firstListValue : List (String × JVal) → Option (List JVal)
  | [] => none
  | (_, v) :: rest =>
    match v with
    | .arr xs => some xs
    | _ => firstListValue rest

/-- `detect_selectors` over the oracle's raw response text, the JSON
decoder (`json.loads`) passed as a function returning `none` on a decode
error.  Empty response → `[]`; no JSON-looking substring → `[]`; decode
failure → `[]`; decoded object → its first list-valued field (or `[]`);
decoded array → the array itself, elements returned as-is; any other
decoded value → `[]`. -/
def detect_selectors (decode : String → Option JVal) (result_str : String) : List JVal :=
  if result_str = "" then []
  else
    match reSearchJson result_str.data with
    | none => []
    | some js =>
      match decode (String.mk js) with
      | none => []
      | some (.obj fields) => (firstListValue fields).getD []
      | some (.arr xs) => xs
      | some _ => []

/-! ## Frontier invariant lemmas -/

theorem enqueue_visited (s : Frontier) (u : String) : (enqueue s u).visited = s.visited := by
  rw [enqueue]
  by_cases h : u ∈ s.visited ∨ u ∈ s.queue
  · rw [if_pos h]
  · rw [if_neg h]

theorem mem_enqueue_queue (s : Frontier) (h u : String) :
    u ∈ (enqueue s h).queue ↔ u ∈ s.queue ∨ (u = h ∧ h ∉ s.visited ∧ h ∉ s.queue) := by
  rw [enqueue]
  by_cases hc : h ∈ s.visited ∨ h ∈ s.queue
  · rw [if_pos hc]
    constructor
    · exact fun hu => Or.inl hu
    · rintro (hu | ⟨rfl, hv, hq⟩)
      · exact hu
      · tauto
  · rw [if_neg hc]
    push_neg at hc
    simp only [List.mem_append, List.mem_singleton]
    tauto

theorem enqueue_inv (s : Frontier) (u : String) (h : frontierInv s) :
    frontierInv (enqueue s u) := by
  obtain ⟨hnd, hdisj⟩ := h
  rw [enqueue]
  by_cases hc : u ∈ s.visited ∨ u ∈ s.queue
  · rw [if_pos hc]
    exact ⟨hnd, hdisj⟩
  · rw [if_neg hc]
    push_neg at hc
    constructor
    · simpa [List.nodup_append] using ⟨hnd, fun hm => hc.2 hm⟩
    · intro v hv
      rcases List.mem_append.mp hv with hv1 | hv2
      · exact hdisj v hv1
      · rw [List.mem_singleton.mp hv2]
        exact hc.1

theorem discoverStep_visited (base : String) :
    ∀ (hrefs : List String) (s : Frontier),
      (discoverStep s base hrefs).visited = s.visited := by
  intro hrefs
  induction hrefs with
  | nil => intro s; rfl
  | cons h t ih =>
    intro s
    have hstep : discoverStep s base (h :: t)
        = discoverStep (if crawlEligible base h then enqueue s h else s) base t := rfl
    rw [hstep, ih]
    by_cases helig : crawlEligible base h = true
    · rw [if_pos helig, enqueue_visited]
    · rw [if_neg helig]

theorem discoverStep_inv (base : String) :
    ∀ (hrefs : List String) (s : Frontier), frontierInv s →
      frontierInv (discoverStep s base hrefs) := by
  intro hrefs
  induction hrefs with
  | nil => intro s h; exact h
  | cons h t ih =>
    intro s hs
    have hstep : discoverStep s base (h :: t)
        = discoverStep (if crawlEligible base h then enqueue s h else s) base t := rfl
    rw [hstep]
    by_cases helig : crawlEligible base h = true
    · rw [if_pos helig]
      exact ih _ (enqueue_inv s h hs)
    · rw [if_neg helig]
      exact ih _ hs

theorem mem_discoverStep_queue (base : String) :
    ∀ (hrefs : List String) (s : Frontier) (u : String),
      u ∈ (discoverStep s base hrefs).queue ↔
        u ∈ s.queue ∨ (u ∈ hrefs ∧ crawlEligible base u = true ∧ u ∉ s.visited) := by
  intro hrefs
  induction hrefs with
  | nil => intro s u; simp [discoverStep]
  | cons h t ih =>
    intro s u
    have hstep : discoverStep s base (h :: t)
        = discoverStep (if crawlEligible base h then enqueue s h else s) base t := rfl
    rw [hstep]
    by_cases helig : crawlEligible base h = true
    · rw [if_pos helig, ih (enqueue s h) u, mem_enqueue_queue, enqueue_visited]
      by_cases hu : u = h
      · subst hu
        simp only [List.mem_cons, true_or, helig]
        tauto
      · simp only [List.mem_cons]
        tauto
    · rw [if_neg helig, ih s u]
      by_cases hu : u = h
      · subst hu
        simp only [List.mem_cons]
        tauto
      · simp only [List.mem_cons]
        tauto
theorem crawlStep_nil (base : String) (vis : List String) (act : PageScript) :
    crawlStep base { visited := vis, queue := [] } act
      = ({ visited := vis, queue := [] }, none) := rfl

theorem crawlStep_cons_visited (base url : String) (vis rest : List String)
    (act : PageScript) (hv : url ∈ vis) :
    crawlStep base { visited := vis, queue := url :: rest } act
      = ({ visited := vis, queue := rest }, none) := by
  simp only [crawlStep]
  rw [if_pos hv]

theorem crawlStep_cons_crash (base url : String) (vis rest : List String) (hv : url ∉ vis) :
    crawlStep base { visited := vis, queue := url :: rest } PageScript.crash
      = ({ visited := vis, queue := rest }, none) := by
  simp only [crawlStep]
  rw [if_neg hv]

theorem crawlStep_cons_page (base url : String) (vis rest links : List String)
    (hv : url ∉ vis) :
    crawlStep base { visited := vis, queue := url :: rest } (PageScript.page links)
      = (discoverStep { visited := url :: vis, queue := rest } base links, some url) := by
  simp only [crawlStep]
  rw [if_neg hv]

theorem crawlStep_inv (base : String) (s : Frontier) (act : PageScript)
    (h : frontierInv s) : frontierInv (crawlStep base s act).1 := by
  obtain ⟨vis, q⟩ := s
  cases q with
  | nil => rw [crawlStep_nil]; exact h
  | cons url rest =>
    obtain ⟨hnd, hdisj⟩ := h
    have hnd2 : (url :: rest).Nodup := hnd
    have hndrest : rest.Nodup := (List.nodup_cons.mp hnd2).2
    have hurlrest : url ∉ rest := (List.nodup_cons.mp hnd2).1
    have hdisj2 : ∀ u ∈ url :: rest, u ∉ vis := hdisj
    by_cases hv : url ∈ vis
    · rw [crawlStep_cons_visited base url vis rest act hv]
      exact ⟨hndrest, fun u hu => hdisj2 u (List.mem_cons_of_mem url hu)⟩
    · cases act with
      | crash =>
        rw [crawlStep_cons_crash base url vis rest hv]
        exact ⟨hndrest, fun u hu => hdisj2 u (List.mem_cons_of_mem url hu)⟩
      | page links =>
        rw [crawlStep_cons_page base url vis rest links hv]
        dsimp only
        apply discoverStep_inv
        refine ⟨hndrest, ?_⟩
        intro u hu
        rw [List.mem_cons]
        push_neg
        exact ⟨fun heq => hurlrest (heq ▸ hu), hdisj2 u (List.mem_cons_of_mem url hu)⟩

theorem crawlStep_visited_sub (base : String) (s : Frontier) (act : PageScript) :
    ∀ u ∈ s.visited, u ∈ (crawlStep base s act).1.visited := by
  obtain ⟨vis, q⟩ := s
  intro u hu
  cases q with
  | nil => rw [crawlStep_nil]; exact hu
  | cons url rest =>
    by_cases hv : url ∈ vis
    · rw [crawlStep_cons_visited base url vis rest act hv]; exact hu
    · cases act with
      | crash => rw [crawlStep_cons_crash base url vis rest hv]; exact hu
      | page links =>
        rw [crawlStep_cons_page base url vis rest links hv]
        dsimp only
        rw [discoverStep_visited base links]
        exact List.mem_cons_of_mem url hu

theorem crawlRun_inv (base : String) :
    ∀ (scripts : List PageScript) (s : Frontier), frontierInv s →
      frontierInv (crawlRun base s scripts).1 := by
  intro scripts
  induction scripts with
  | nil => intro s h; exact h
  | cons act rest ih =>
    intro s h
    rw [crawlRun]
    by_cases hq : s.queue = []
    · rw [if_pos hq]; exact h
    · rw [if_neg hq]
      exact ih _ (crawlStep_inv base s act h)

theorem crawlRun_processed (base : String) :
    ∀ (scripts : List PageScript) (s : Frontier), frontierInv s →
      ((crawlRun base s scripts).2.Nodup
        ∧ ∀ u ∈ (crawlRun base s scripts).2, u ∉ s.visited) := by
  intro scripts
  induction scripts with
  | nil =>
    intro s _
    exact ⟨List.nodup_nil, by intro u hu; cases hu⟩
  | cons act rest ih =>
    intro s hs
    rw [crawlRun]
    by_cases hq : s.queue = []
    · rw [if_pos hq]
      exact ⟨List.nodup_nil, by intro u hu; cases hu⟩
    · rw [if_neg hq]
      obtain ⟨ihnd, ihnv⟩ := ih (crawlStep base s act).1 (crawlStep_inv base s act hs)
      obtain ⟨vis, q⟩ := s
      cases q with
      | nil => exact absurd rfl hq
      | cons url restq =>
        by_cases hv : url ∈ vis
        · rw [crawlStep_cons_visited base url vis restq act hv] at ihnd ihnv ⊢
          dsimp only at ihnd ihnv ⊢
          simp only [Option.toList_none, List.nil_append]
          exact ⟨ihnd, fun u hu => ihnv u hu⟩
        · cases act with
          | crash =>
            rw [crawlStep_cons_crash base url vis restq hv] at ihnd ihnv ⊢
            dsimp only at ihnd ihnv ⊢
            simp only [Option.toList_none, List.nil_append]
            exact ⟨ihnd, fun u hu => ihnv u hu⟩
          | page links =>
            rw [crawlStep_cons_page base url vis restq links hv] at ihnd ihnv ⊢
            dsimp only at ihnd ihnv ⊢
            rw [discoverStep_visited base links] at ihnv
            simp only [Option.toList_some, List.singleton_append, List.nodup_cons]
            refine ⟨⟨?_, ihnd⟩, ?_⟩
            · intro hmem
              exact (ihnv url hmem) (List.mem_cons_self url vis)
            · intro u hu
              rcases List.mem_cons.mp hu with rfl | hu2
              · exact hv
              · exact fun hcon => (ihnv u hu2) (List.mem_cons_of_mem url hcon)

theorem discoverStep_queue_append (base : String) :
    ∀ (hrefs : List String) (s : Frontier),
      ∃ news, (discoverStep s base hrefs).queue = s.queue ++ news := by
  intro hrefs
  induction hrefs with
  | nil => intro s; exact ⟨[], by simp [discoverStep]⟩
  | cons h t ih =>
    intro s
    have hstep : discoverStep s base (h :: t)
        = discoverStep (if crawlEligible base h then enqueue s h else s) base t := rfl
    rw [hstep]
    by_cases helig : crawlEligible base h = true
    · rw [if_pos helig]
      obtain ⟨n2, hn2⟩ := ih (enqueue s h)
      rw [hn2, enqueue]
      by_cases hc : h ∈ s.visited ∨ h ∈ s.queue
      · rw [if_pos hc]
        exact ⟨n2, rfl⟩
      · rw [if_neg hc]
        refine ⟨[h] ++ n2, ?_⟩
        simp
    · rw [if_neg helig]
      exact ih s

theorem crawlStep_queue_fifo (base : String) (s : Frontier) (act : PageScript)
    (url : String) (rest : List String) (hq : s.queue = url :: rest) :
    ∃ news, (crawlStep base s act).1.queue = rest ++ news := by
  have hs : s = { visited := s.visited, queue := url :: rest } := by
    obtain ⟨vis, q⟩ := s
    change q = url :: rest at hq
    rw [hq]
  rw [hs]
  by_cases hv : url ∈ s.visited
  · rw [crawlStep_cons_visited _ _ _ _ act hv]
    exact ⟨[], by simp⟩
  · cases act with
    | crash =>
      rw [crawlStep_cons_crash _ _ _ _ hv]
      exact ⟨[], by simp⟩
    | page links =>
      rw [crawlStep_cons_page _ _ _ _ links hv]
      dsimp only
      exact discoverStep_queue_append base links { visited := url :: s.visited, queue := rest }

/-! ## Claim theorems: frontier and link discovery -/

/-- C1: in every state reachable by the crawl loop the pending queue holds
no URL twice and no URL already visited; a URL is enqueued only when it is
in neither collection (otherwise `enqueue` is a no-op, and when fresh it is
appended at the back); the loop dequeues the queue's front (so dequeue order
is enqueue — FIFO — order); and no URL is ever dequeued-and-processed
(marked visited) twice in one run. -/
theorem frontier_invariant (base start : String) (scripts : List PageScript)
    (s : Frontier) (act : PageScript) (u url : String) (rest : List String) :
    frontierInv (crawlRun base (initFrontier start) scripts).1
    ∧ ((crawlRun base (initFrontier start) scripts).2).Nodup
    ∧ ((u ∈ s.visited ∨ u ∈ s.queue) → enqueue s u = s)
    ∧ (u ∉ s.visited → u ∉ s.queue →
        (enqueue s u).queue = s.queue ++ [u] ∧ (enqueue s u).visited = s.visited)
    ∧ (s.queue = url :: rest → ∃ news, (crawlStep base s act).1.queue = rest ++ news) := by
  have hinit : frontierInv (initFrontier start) := by
    refine ⟨List.nodup_singleton start, ?_⟩
    intro v hv
    intro hcon
    cases hcon
  refine ⟨crawlRun_inv base scripts (initFrontier start) hinit,
    (crawlRun_processed base scripts (initFrontier start) hinit).1, ?_, ?_, ?_⟩
  · intro hmem
    rw [enqueue, if_pos hmem]
  · intro hv hq
    have hc : ¬ (u ∈ s.visited ∨ u ∈ s.queue) := by tauto
    rw [enqueue, if_neg hc]
    exact ⟨rfl, rfl⟩
  · intro hq
    exact crawlStep_queue_fifo base s act url rest hq

theorem frontier_invariant_witness :
    ((crawlRun "example.com" (initFrontier "https://example.com/")
      [PageScript.page ["https://example.com/a"]]).2).Nodup :=
  (frontier_invariant "example.com" "https://example.com/"
    [PageScript.page ["https://example.com/a"]] (initFrontier "https://example.com/")
    PageScript.crash "u" "v" []).2.1

/-- C5 counterexample: with `base_domain = "example.com"`, the in-domain
href `https://example.com/c.pdf` is recognised as a document link (it ends
in `.pdf`), yet the link-discovery loop of `main` also enqueues it into the
crawl frontier — the code has no document-link exclusion in lines 227-233,
contradicting the claim that such an href is excluded from the frontier. -/
theorem domain_scoping_counterexample :
    isPdfHref "https://example.com/c.pdf" = true ∧
    crawlEligible "example.com" "https://example.com/c.pdf" = true ∧
    "https://example.com/c.pdf" ∈
      (discoverStep (initFrontier "https://example.com/") "example.com"
        ["https://example.com/a", "https://other.com/b", "https://example.com/c.pdf"]).queue ∧
    "https://example.com/c.pdf" ∈ discoverPdfHrefs
      ["https://example.com/a", "https://other.com/b", "https://example.com/c.pdf"] := by
  decide

/-- C5 amended: an href is enqueued as a crawlable link iff it starts with
`http`, its `urlparse` netloc equals the base domain, and it is not already
visited or pending — with no document-link exclusion: an in-domain href
ending in the document extension is classified as a document link AND is
also enqueued into the crawl frontier.  (Off-domain hrefs such as
`https://other.com/b` are still excluded.) -/
theorem domain_scoping_amended (s : Frontier) (base : String)
    (hrefs : List String) (u : String) :
    (u ∈ (discoverStep s base hrefs).queue ↔
      u ∈ s.queue ∨ (u ∈ hrefs ∧ crawlEligible base u = true ∧ u ∉ s.visited))
    ∧ (u ∈ discoverPdfHrefs hrefs ↔ u ∈ hrefs ∧ isPdfHref u = true)
    ∧ (discoverStep s base hrefs).visited = s.visited := by
  refine ⟨mem_discoverStep_queue base hrefs s u, ?_, discoverStep_visited base hrefs s⟩
  rw [discoverPdfHrefs, List.mem_filter]

theorem domain_scoping_amended_witness :
    "https://other.com/b" ∈
      (discoverStep (initFrontier "https://example.com/") "example.com"
        ["https://other.com/b"]).queue ↔
      "https://other.com/b" ∈ (initFrontier "https://example.com/").queue ∨
        ("https://other.com/b" ∈ ["https://other.com/b"] ∧
          crawlEligible "example.com" "https://other.com/b" = true ∧
          "https://other.com/b" ∉ (initFrontier "https://example.com/").visited) :=
  (domain_scoping_amended (initFrontier "https://example.com/") "example.com"
    ["https://other.com/b"] "https://other.com/b").1

/-! ## Claim theorems: download manager -/

/-- Invariant of the download dispatch state: no URL dispatched twice, and
every dispatched URL is already in the global downloaded set. -/
def dispatchInv (st : List String × List String) : Prop :=
  st.2.Nodup ∧ ∀ v ∈ st.2, v ∈ st.1

theorem dispatchBatch_spec :
    ∀ (b : List String) (st : List String × List String), dispatchInv st →
      dispatchInv (dispatchBatch st b)
      ∧ (∀ u, u ∈ (dispatchBatch st b).1 ↔ u ∈ st.1 ∨ u ∈ b)
      ∧ (∀ u, u ∈ (dispatchBatch st b).2 ↔ u ∈ st.2 ∨ (u ∈ b ∧ u ∉ st.1)) := by
  intro b
  induction b with
  | nil =>
    intro st h
    exact ⟨h, fun u => by simp [dispatchBatch], fun u => by simp [dispatchBatch]⟩
  | cons x t ih =>
    intro st hst
    have hstep : dispatchBatch st (x :: t)
        = dispatchBatch (if x ∈ st.1 then st else (x :: st.1, st.2 ++ [x])) t := rfl
    rw [hstep]
    by_cases hx : x ∈ st.1
    · rw [if_pos hx]
      obtain ⟨h1, h2, h3⟩ := ih st hst
      refine ⟨h1, ?_, ?_⟩
      · intro u
        rw [h2 u]
        simp only [List.mem_cons]
        by_cases hu : u = x
        · subst hu; tauto
        · tauto
      · intro u
        rw [h3 u]
        simp only [List.mem_cons]
        by_cases hu : u = x
        · subst hu; tauto
        · tauto
    · rw [if_neg hx]
      have hst2 : dispatchInv (x :: st.1, st.2 ++ [x]) := by
        obtain ⟨hnd, hsub⟩ := hst
        constructor
        · refine hnd.append (List.nodup_singleton x) ?_
          intro a ha hax
          rw [List.mem_singleton.mp hax] at ha
          exact hx (hsub x ha)
        · intro v hv
          rcases List.mem_append.mp hv with hv1 | hv2
          · exact List.mem_cons_of_mem x (hsub v hv1)
          · rw [List.mem_singleton.mp hv2]
            exact List.mem_cons_self x st.1
      obtain ⟨h1, h2, h3⟩ := ih _ hst2
      refine ⟨h1, ?_, ?_⟩
      · intro u
        rw [h2 u]
        simp only [List.mem_cons]
        by_cases hu : u = x
        · subst hu; tauto
        · tauto
      · intro u
        rw [h3 u]
        simp only [List.mem_append, List.mem_singleton, List.mem_cons]
        by_cases hu : u = x
        · subst hu; tauto
        · tauto

theorem dispatchRun_spec :
    ∀ (pages : List (List String)) (st : List String × List String), dispatchInv st →
      dispatchInv (dispatchRun st pages)
      ∧ (∀ u, u ∈ (dispatchRun st pages).1 ↔ u ∈ st.1 ∨ ∃ b ∈ pages, u ∈ b)
      ∧ (∀ u, u ∈ (dispatchRun st pages).2 ↔
          u ∈ st.2 ∨ ((∃ b ∈ pages, u ∈ b) ∧ u ∉ st.1)) := by
  intro pages
  induction pages with
  | nil =>
    intro st h
    exact ⟨h, fun u => by simp [dispatchRun], fun u => by simp [dispatchRun]⟩
  | cons b rest ih =>
    intro st hst
    have hstep : dispatchRun st (b :: rest) = dispatchRun (dispatchBatch st b) rest := rfl
    rw [hstep]
    obtain ⟨hb1, hb2, hb3⟩ := dispatchBatch_spec b st hst
    obtain ⟨h1, h2, h3⟩ := ih (dispatchBatch st b) hb1
    refine ⟨h1, ?_, ?_⟩
    · intro u
      rw [h2 u, hb2 u]
      simp only [List.mem_cons, exists_eq_or_imp]
      tauto
    · intro u
      rw [h3 u, hb3 u, hb2 u]
      simp only [List.mem_cons, exists_eq_or_imp]
      tauto

theorem audit_lines_le {fetch : String → FetchOutcome} {src : String} :
    ∀ (urls : List String),
      (((urls.map (fun v => (download_pdf_concurrently fetch v src).2)).flatten).length
        ≤ urls.length) := by
  intro urls
  induction urls with
  | nil => simp
  | cons v t ih =>
    simp only [List.map_cons, List.flatten_cons, List.length_append, List.length_cons]
    have hone : ((download_pdf_concurrently fetch v src).2).length ≤ 1 := by
      rw [download_pdf_concurrently]
      cases fetch v <;> simp
    omega

/-- C9: starting from the empty global downloaded set, the per-run dispatch
never fetches a URL twice — the dispatched list is duplicate-free, a URL is
dispatched iff it occurs in some page batch, every dispatched URL ends up
in the global set (it is added in the same fold step it is dispatched), an
attempted URL is fetched exactly once however often it re-occurs, and the
audit lines produced across the run are bounded by the dispatched fetches
(a skipped re-occurrence produces no record). -/
theorem download_dedup (pages : List (List String)) (u : String)
    (fetch : String → FetchOutcome) (src : String) :
    ((dispatchRun ([], []) pages).2).Nodup
    ∧ (u ∈ (dispatchRun ([], []) pages).2 ↔ ∃ b ∈ pages, u ∈ b)
    ∧ (u ∈ (dispatchRun ([], []) pages).2 → u ∈ (dispatchRun ([], []) pages).1)
    ∧ ((∃ b ∈ pages, u ∈ b) → ((dispatchRun ([], []) pages).2).count u = 1)
    ∧ ((((dispatchRun ([], []) pages).2).map
          (fun v => (download_pdf_concurrently fetch v src).2)).flatten).length
        ≤ ((dispatchRun ([], []) pages).2).length := by
  have hinv0 : dispatchInv (([] : List String), ([] : List String)) :=
    ⟨List.nodup_nil, by intro v hv; cases hv⟩
  obtain ⟨⟨hnd, hsub⟩, hset, hfet⟩ := dispatchRun_spec pages ([], []) hinv0
  have hmem : u ∈ (dispatchRun ([], []) pages).2 ↔ ∃ b ∈ pages, u ∈ b := by
    rw [hfet u]
    simp
  refine ⟨hnd, hmem, fun h => hsub u h, ?_, audit_lines_le _⟩
  intro hex
  have h1 : u ∈ (dispatchRun ([], []) pages).2 := hmem.mpr hex
  have h2 : 0 < ((dispatchRun ([], []) pages).2).count u := List.count_pos_iff.mpr h1
  have h3 : ((dispatchRun ([], []) pages).2).count u ≤ 1 :=
    List.nodup_iff_count_le_one.mp hnd u
  omega

theorem download_dedup_witness :
    ((dispatchRun ([], []) [["u"], ["u"]]).2).count "u" = 1 :=
  (download_dedup [["u"], ["u"]] "u" (fun _ => FetchOutcome.success) "s").2.2.2.1
    ⟨["u"], by simp, by simp⟩

/-- C2 counterexample: a failed download attempt (the fetch raises, landing
in the `except` branch of `download_pdf_concurrently`) returns `None` and
appends NO record to the download audit log — the failure is written only to
the console logger — contradicting the claim that a failed download also
produces a `Failure` audit record. -/
theorem audit_record_counterexample :
    (download_pdf_concurrently (fun _ => FetchOutcome.failure "timeout")
        "https://host/a.pdf" "https://host/page").1 = none ∧
    (download_pdf_concurrently (fun _ => FetchOutcome.failure "timeout")
        "https://host/a.pdf" "https://host/page").2 = [] :=
  ⟨rfl, rfl⟩

/-- C2 amended: a successful fetch-and-persist appends exactly one audit
record (the pdf URL and source URL, comma-separated) and returns the URL; a
failed attempt appends no audit record (it is logged to the console only)
and returns `None`; the audit log is append-only — appending new records
leaves every previously appended record in place. -/
theorem audit_record_amended (fetch : String → FetchOutcome) (u src : String)
    (log : List String) :
    (fetch u = FetchOutcome.success →
      (download_pdf_concurrently fetch u src).2 = [u ++ "," ++ src]
        ∧ (download_pdf_concurrently fetch u src).1 = some u)
    ∧ (∀ r, fetch u = FetchOutcome.failure r →
      (download_pdf_concurrently fetch u src).2 = []
        ∧ (download_pdf_concurrently fetch u src).1 = none)
    ∧ (log ++ (download_pdf_concurrently fetch u src).2).take log.length = log := by
  refine ⟨?_, ?_, List.take_left log _⟩
  · intro h
    rw [download_pdf_concurrently, h]
    exact ⟨rfl, rfl⟩
  · intro r h
    rw [download_pdf_concurrently, h]
    exact ⟨rfl, rfl⟩

theorem audit_record_amended_witness :
    (download_pdf_concurrently (fun _ => FetchOutcome.success) "u" "s").2
        = ["u" ++ "," ++ "s"]
      ∧ (download_pdf_concurrently (fun _ => FetchOutcome.success) "u" "s").1 = some "u" :=
  (audit_record_amended (fun _ => FetchOutcome.success) "u" "s" []).1 rfl

/-! ## Claim theorems: response parser -/

/-- A concrete stub for `json.loads`, defined on the two oracle responses
used below (faithful to what `json.loads` returns on them). -/
def decodeStub : String → Option JVal := fun t =>
  if t = "[\"a\", 1]" then some (JVal.arr [JVal.str "a", JVal.num 1])
  else if t = "[\"x\"]" then some (JVal.arr [JVal.str "x"]) else none

/-- C6 counterexample: on the oracle response `["a", 1]` (decoded by
`json.loads` to a list holding the string `"a"` and the number `1`), the
parse returns BOTH elements — the non-string `1` is retained in the selector
collection, not discarded, contradicting the claim that non-string elements
are dropped and only the string selectors returned. -/
theorem nonstring_tolerance_counterexample :
    detect_selectors decodeStub "[\"a\", 1]" = [JVal.str "a", JVal.num 1] ∧
    JVal.num 1 ∈ detect_selectors decodeStub "[\"a\", 1]" := by
  constructor
  · rfl
  · show JVal.num 1 ∈ [JVal.str "a", JVal.num 1]
    simp

/-- C6 amended: when the extracted JSON decodes to a candidate list, the
parse returns that list as-is: non-string elements are retained alongside
the string selectors, and a non-string element does not make the parse of
that response fail or contribute nothing. -/
theorem nonstring_tolerance_amended (decode : String → Option JVal)
    (s : String) (js : List Char) (xs : List JVal)
    (hjs : reSearchJson s.data = some js)
    (hdec : decode (String.mk js) = some (JVal.arr xs)) :
    detect_selectors decode s = xs := by
  have hne : s ≠ "" := by
    intro h
    subst h
    have h0 : reSearchJson ("" : String).data = none := rfl
    rw [h0] at hjs
    cases hjs
  rw [detect_selectors, if_neg hne, hjs]
  simp only [hdec]

theorem nonstring_tolerance_amended_witness :
    detect_selectors decodeStub "[\"x\"]" = [JVal.str "x"] :=
  nonstring_tolerance_amended decodeStub "[\"x\"]" ("[\"x\"]".data) [JVal.str "x"]
    rfl rfl

/-- C8: the response-parsing stage is total and yields the empty selector
set in every degenerate case — when the response holds no JSON-looking
substring, when the extracted substring fails to decode, and when the
decoded object has no list-valued field; no case raises to the caller. -/
theorem parser_leniency (decode : String → Option JVal) (s : String) :
    (reSearchJson s.data = none → detect_selectors decode s = [])
    ∧ (∀ js, reSearchJson s.data = some js → decode (String.mk js) = none →
        detect_selectors decode s = [])
    ∧ (∀ js fields, reSearchJson s.data = some js →
        decode (String.mk js) = some (JVal.obj fields) → firstListValue fields = none →
        detect_selectors decode s = []) := by
  refine ⟨?_, ?_, ?_⟩
  · intro hnone
    by_cases hne : s = ""
    · rw [detect_selectors, if_pos hne]
    · rw [detect_selectors, if_neg hne, hnone]
  · intro js hjs hdec
    have hne : s ≠ "" := by
      intro h
      subst h
      have h0 : reSearchJson ("" : String).data = none := rfl
      rw [h0] at hjs
      cases hjs
    rw [detect_selectors, if_neg hne, hjs]
    simp only [hdec]
  · intro js fields hjs hdec hfl
    have hne : s ≠ "" := by
      intro h
      subst h
      have h0 : reSearchJson ("" : String).data = none := rfl
      rw [h0] at hjs
      cases hjs
    rw [detect_selectors, if_neg hne, hjs]
    simp only [hdec, hfl, Option.getD_none]

theorem parser_leniency_witness :
    detect_selectors (fun _ => none) "no json here" = [] :=
  (parser_leniency (fun _ => none) "no json here").1 rfl

end Scraper
